import Mathlib

set_option synthInstance.maxSize 512

/-!
Verification development for the `tx` subcommand family of a local
transaction staging workbench (`src/subcommands/local/tx.rs`).

The file shallowly embeds:

* the dependency-token parser of the `add` branch (split on the dash
  separator, optional hex marker stripping, fixed-width hex hash
  decoding, unsigned 32-bit index parsing);
* the staged-transaction store and the manager operations used by the
  subcommand branches (`add`, `set-witness`, `set-witnesses-by-keys`,
  `show`, `remove`, `verify`, `list`).

Strings are embedded as lists of characters.  Machine integers are
embedded as `Nat` with explicit bounds (`2 ^ 32`, `2 ^ 64`) where the
width matters.  Fallible steps return `Except Err` or `Option`.
-/

/-- Error taxonomy of the workflow.  `MalformedDependency`, `InvalidHash`
and `InvalidIndex` correspond to the three failure strings produced while
parsing a dependency token; `UnknownReference` carries the unresolved
name; the remaining constructors are the lookup, storage and verification
failures of the taxonomy. -/
inductive Err where
  | MalformedDependency
  | InvalidHash
  | InvalidIndex
  | UnknownReference (name : String)
  | NotFound
  | CorruptRecord
  | StoreUnavailable
  | RemoteUnavailable
  | RemoteRejected
  | BudgetExceeded
  deriving DecidableEq, Repr

instance {ε α : Type} [DecidableEq ε] [DecidableEq α] :
    DecidableEq (Except ε α) := fun a b =>
  match a, b with
  | .error e1, .error e2 =>
    if h : e1 = e2 then .isTrue (by rw [h]) else .isFalse (fun hc => h (by injection hc))
  | .ok v1, .ok v2 =>
    if h : v1 = v2 then .isTrue (by rw [h]) else .isFalse (fun hc => h (by injection hc))
  | .error _, .ok _ => .isFalse (fun hc => Except.noConfusion hc)
  | .ok _, .error _ => .isFalse (fun hc => Except.noConfusion hc)

/-- Value of one hexadecimal digit character, accepting both cases
(`0`-`9`, `a`-`f`, `A`-`F`); `none` for every other character. -/
def hexVal (c : Char) : Option Nat :=
  if 48 ≤ c.toNat ∧ c.toNat ≤ 57 then some (c.toNat - 48)
  else if 97 ≤ c.toNat ∧ c.toNat ≤ 102 then some (c.toNat - 87)
  else if 65 ≤ c.toNat ∧ c.toNat ≤ 70 then some (c.toNat - 55)
  else none

/-- Decode a character list digit by digit; `none` as soon as one
character is not a hexadecimal digit. -/
def hexDecodeCore : List Char → Option (List Nat)
  | [] => some []
  | c :: cs =>
    match hexVal c, hexDecodeCore cs with
    | some d, some ds => some (d :: ds)
    | _, _ => none

/-- Embedding of `H256::from_hex_str`: the input must be exactly 64
hexadecimal digits (fixed width, leading zeros included) and decodes to
the list of 64 nibble values of the 256-bit hash. -/
def hexDecode (cs : List Char) : Option (List Nat) :=
  if cs.length = 64 then hexDecodeCore cs else none

/-- Embedding of the marker stripping step of the `add` branch: when the
hash part starts with `0x` or `0X` the first two characters are dropped,
otherwise the string is kept as it is. -/
def stripHex0x (cs : List Char) : List Char :=
  match cs with
  | a :: b :: rest => if a = '0' ∧ (b = 'x' ∨ b = 'X') then rest else a :: b :: rest
  | _ => cs

/-- Value of one decimal digit character; `none` for every other
character. -/
def decVal (c : Char) : Option Nat :=
  if 48 ≤ c.toNat ∧ c.toNat ≤ 57 then some (c.toNat - 48) else none

/-- Decode a character list decimal digit by decimal digit. -/
def decDecodeCore : List Char → Option (List Nat)
  | [] => some []
  | c :: cs =>
    match decVal c, decDecodeCore cs with
    | some d, some ds => some (d :: ds)
    | _, _ => none

/-- Numeric value of a most-significant-first decimal digit list. -/
def digitsVal (ds : List Nat) : Nat :=
  List.foldl (fun a d => 10 * a + d) 0 ds

/-- Removal of the optional leading plus sign accepted by the unsigned
integer parser. -/
def stripPlus (cs : List Char) : List Char :=
  match cs with
  | '+' :: rest => rest
  | _ => cs

/-- Embedding of `str::parse::<u32>`: an optional leading plus sign, then
one or more decimal digits, and the value must fit in 32 bits. -/
def parseU32 (cs : List Char) : Option Nat :=
  if stripPlus cs = [] then none
  else
    match decDecodeCore (stripPlus cs) with
    | none => none
    | some ds => if digitsVal ds < 2 ^ 32 then some (digitsVal ds) else none

/-- Embedding of `str::split('-')`: cut the character list at every dash,
keeping empty pieces, never returning an empty piece list. -/
def splitDash : List Char → List (List Char)
  | [] => [[]]
  | c :: rest =>
    if c = '-' then [] :: splitDash rest
    else
      match splitDash rest with
      | [] => [[c]]
      | p :: ps => (c :: p) :: ps

/-- Inverse gluing of `splitDash`: interleave a dash between the pieces. -/
def joinDash : List (List Char) → List Char
  | [] => []
  | [p] => p
  | p :: q :: rest => p ++ '-' :: joinDash (q :: rest)

/-- Reference of a prior output cell: 64 hash nibbles and an output
index, as built by `OutPoint::new_cell`. -/
structure OutPoint where
  txHash : List Nat
  index : Nat
  deriving DecidableEq, Repr

/-- Processing of the two parts of a dependency token: strip an optional
hex marker from the first part, hex-decode it as a fixed-width hash,
parse the second part as an unsigned 32-bit integer. -/
def parseDepParts (a b : List Char) : Except Err OutPoint :=
  match hexDecode (stripHex0x a) with
  | none => .error .InvalidHash
  | some hsh =>
    match parseU32 b with
    | none => .error .InvalidIndex
    | some idx => .ok ⟨hsh, idx⟩

/-- Embedding of the dependency-token parsing step of the `add` branch:
split on the dash, demand exactly two parts or fail with
`MalformedDependency`, then process the two parts. -/
def parseDep (cs : List Char) : Except Err OutPoint :=
  match splitDash cs with
  | [a, b] => parseDepParts a b
  | _ => .error .MalformedDependency

/-- Lowercase character of one hexadecimal digit value. -/
def hexDigitCh (d : Nat) : Char :=
  if d < 10 then Char.ofNat (48 + d) else Char.ofNat (87 + d)

/-- Lowercase hexadecimal rendering of a nibble list. -/
def hexEncode (ds : List Nat) : List Char :=
  ds.map hexDigitCh

/-- Decimal digits of a number, least significant first. -/
def decDigitsRev (n : Nat) : List Nat :=
  if n < 10 then [n] else (n % 10) :: decDigitsRev (n / 10)
  decreasing_by exact Nat.div_lt_self (by omega) (by omega)

/-- Character of one decimal digit value. -/
def decCh (d : Nat) : Char :=
  Char.ofNat (48 + d)

/-- Decimal rendering of a number, most significant digit first. -/
def decRepr (n : Nat) : List Char :=
  (decDigitsRev n).reverse.map decCh

/-- Modelled from the spec: the compact textual form of an `OutPoint`
(`<hex-hash>-<index>`), used to state the parse and re-serialize
round trip; no serializer exists in the file under study. -/
def serializeDep (o : OutPoint) : List Char :=
  hexEncode o.txHash ++ '-' :: decRepr o.index

/-- Declarative grammar of a valid dependency token: an optional `0x` or
`0X` marker, a fixed-width hexadecimal hash decoding to the token's hash
nibbles, a dash, and a 32-bit decimal index. -/
def ValidToken (cs : List Char) (o : OutPoint) : Prop :=
  ∃ p hs idxs,
    (p = [] ∨ p = ['0', 'x'] ∨ p = ['0', 'X']) ∧
    cs = p ++ hs ++ '-' :: idxs ∧
    hexDecode hs = some o.txHash ∧
    parseU32 idxs = some o.index

/-- Modelled from the spec: a witness is the per-input unlocking data, a
list of byte strings, initially the empty placeholder (`Witness::new`). -/
abbrev Witness := List (List Nat)

/-- Modelled from the spec: a cell input references the consumed cell and
carries its guarding lock identity as seen by the signing step (the exact
matching rule is left open by the spec; the identity is what a candidate
key is matched against). -/
structure CellInput where
  previousOutput : OutPoint
  lockId : Nat
  deriving DecidableEq, Repr

/-- Modelled from the spec: a cell output is a value-bearing,
lock-script-guarded unit of ledger state. -/
structure CellOutput where
  capacity : Nat
  lockId : Nat
  deriving DecidableEq, Repr

/-- Modelled from the spec: a named signing credential, exposing the
identity derivable from the key that the signing step matches against an
input lock. -/
structure Key where
  ident : Nat
  deriving DecidableEq, Repr

/-- Staged transaction: ordered dependencies, inputs, outputs and the
positionally aligned witness list, as assembled by `TransactionBuilder`. -/
structure Transaction where
  deps : List OutPoint
  inputs : List CellInput
  outputs : List CellOutput
  witnesses : List Witness
  deriving DecidableEq, Repr

/-- Content of a transaction excluding witnesses; used as its identity. -/
abbrev TxHash := List OutPoint × List CellInput × List CellOutput

/-- Modelled from the spec: the content hash of a transaction is derived
deterministically from its content excluding witnesses (the concrete
hashing rules live in the ledger format, outside the file under study);
it is modelled as the witness-free content itself, which is deterministic
and ignores witnesses exactly as the spec demands. -/
def Transaction.hash (tx : Transaction) : TxHash :=
  (tx.deps, tx.inputs, tx.outputs)

/-- Persistent table of staged transaction records, keyed by hash. -/
abbrev TxStore := List (TxHash × Transaction)

/-- Lookup of the record stored under a hash. -/
def storeGet (s : TxStore) (h : TxHash) : Option Transaction :=
  match s with
  | [] => none
  | (h', tx) :: rest => if h' = h then some tx else storeGet rest h

/-- Removal of every record stored under a hash. -/
def storeDelete (s : TxStore) (h : TxHash) : TxStore :=
  match s with
  | [] => []
  | (h', tx) :: rest =>
    if h' = h then storeDelete rest h else (h', tx) :: storeDelete rest h

/-- Insertion of a record under a hash, overwriting any prior record. -/
def storeInsert (s : TxStore) (h : TxHash) (tx : Transaction) : TxStore :=
  (h, tx) :: storeDelete s h

/-- Modelled from the spec: `TransactionManager::add` (ckb-sdk, not under
`src/`) persists the transaction keyed by its computed hash, overwriting
any prior record at that hash. -/
def txAdd (s : TxStore) (tx : Transaction) : TxStore :=
  storeInsert s (Transaction.hash tx) tx

/-- Modelled from the spec: `TransactionManager::get` fails with
`NotFound` when no record exists under the hash. -/
def txGet (s : TxStore) (h : TxHash) : Except Err Transaction :=
  match storeGet s h with
  | none => .error .NotFound
  | some tx => .ok tx

/-- Modelled from the spec: `TransactionManager::remove` deletes the
record and returns the prior value, failing with `NotFound` when
absent. -/
def txRemove (s : TxStore) (h : TxHash) : Except Err (Transaction × TxStore) :=
  match storeGet s h with
  | none => .error .NotFound
  | some tx => .ok (tx, storeDelete s h)

/-- Modelled from the spec: `TransactionManager::list` enumerates all
staged records. -/
def txList (s : TxStore) : List Transaction :=
  s.map (fun p => p.2)

/-- Modelled from the spec: the witness the signing step produces for one
input given the known keys — the unlock proof of the first matching key,
or the empty placeholder when no key matches. -/
def signWitness (keys : List Key) (inp : CellInput) : Witness :=
  match keys.find? (fun k => k.ident == inp.lockId) with
  | some k => [[k.ident]]
  | none => []

/-- Replacement of the witness list of a transaction by the witnesses the
known keys produce, one per input, in place. -/
def signTx (keys : List Key) (tx : Transaction) : Transaction :=
  { tx with witnesses := tx.inputs.map (signWitness keys) }

/-- Modelled from the spec: `TransactionManager::set_witnesses_by_keys`
loads the record under the hash (`NotFound` when absent) and replaces the
witness list with one entry per input produced from the matching keys.
Computing an unlock proof is an implicit per-input query against the
remote view of chain state, so the call fails with `RemoteUnavailable`
exactly when the transaction has at least one input and that remote
consultation fails (the `rpcOk` flag); a transaction with no inputs
performs no query and signs successfully even with a failing remote.
On success the updated record is re-persisted keyed by its computed hash
and returned. -/
def setWitnessesByKeys (keys : List Key) (rpcOk : Bool) (s : TxStore)
    (h : TxHash) : Except Err (Transaction × TxStore) :=
  match storeGet s h with
  | none => .error .NotFound
  | some tx =>
    if rpcOk = true ∨ tx.inputs = [] then
      .ok (signTx keys tx,
        storeInsert s (Transaction.hash (signTx keys tx)) (signTx keys tx))
    else .error .RemoteUnavailable

/-- Modelled from the spec: `TransactionManager::verify` loads the record
(`NotFound` when absent), submits it to the remote verifier (a blocking
round trip, `RemoteUnavailable` on transport failure), fails with
`RemoteRejected` when the verifier reports the transaction invalid and
with `BudgetExceeded` when the computed cost exceeds the supplied
maximum, otherwise reports the computed cost. -/
def txVerify (verdict : Transaction → Bool × Nat) (rpcOk : Bool)
    (s : TxStore) (h : TxHash) (maxCost : Nat) : Except Err Nat :=
  match storeGet s h with
  | none => .error .NotFound
  | some tx =>
    if rpcOk then
      if (verdict tx).1 then
        if maxCost < (verdict tx).2 then .error .BudgetExceeded
        else .ok (verdict tx).2
      else .error .RemoteRejected
    else .error .RemoteUnavailable

/-- Modelled from the spec: keyed lookup in a named registry (the
`CellManager` / `CellInputManager` `get`), failing when the name is
absent. -/
def regGet (reg : List (String × α)) (name : String) : Option α :=
  match reg with
  | [] => none
  | (n, v) :: rest => if n = name then some v else regGet rest name

/-- Resolution of a list of names through a registry; the first
unresolved name aborts the whole resolution with `UnknownReference`. -/
def resolveAll (reg : List (String × α)) (names : List String) :
    Except Err (List α) :=
  match names with
  | [] => .ok []
  | n :: rest =>
    match regGet reg n with
    | none => .error (.UnknownReference n)
    | some v => (resolveAll reg rest).map (fun vs => v :: vs)

/-- Parsing of the dependency token list; the first malformed token
aborts the whole parse with its error. -/
def parseDeps : List (List Char) → Except Err (List OutPoint)
  | [] => .ok []
  | t :: rest =>
    match parseDep t with
    | .error e => .error e
    | .ok o => (parseDeps rest).map (fun os => o :: os)

/-- Fixed collaborators of one subcommand invocation: the two named cell
registries, the stored keys (`KeyManager::list`) and whether the remote
consultation performed during signing succeeds. -/
structure Env where
  cellInputs : List (String × CellInput)
  cellOutputs : List (String × CellOutput)
  keys : List Key
  rpcOk : Bool
  deriving DecidableEq, Repr

/-- Arguments of the `add` branch; each of the three token lists is
absent (`none`) when the corresponding flag was not given, mirroring
`values_of_lossy(..).unwrap_or_else(Vec::new)`. -/
structure AddArgs where
  deps : Option (List (List Char))
  inputs : Option (List String)
  outputs : Option (List String)
  setWitnessesByKeys : Bool
  deriving DecidableEq, Repr

/-- Assembly of a transaction from resolved dependencies, inputs and
outputs, with one initially empty witness slot per input, as performed by
the `TransactionBuilder` chain of the `add` branch. -/
def buildTx (deps : List OutPoint) (inputs : List CellInput)
    (outputs : List CellOutput) : Transaction :=
  ⟨deps, inputs, outputs, inputs.map (fun _ => ([] : Witness))⟩

/-- Embedding of the `add` branch of `process`: parse the dependency
tokens, resolve the input names then the output names through the
registries, build one empty witness per input, assemble the transaction,
persist it, and when immediate signing was requested run the signing step
on the freshly staged transaction.  The returned store reflects every
write performed up to the point of success or failure. -/
def processAdd (env : Env) (args : AddArgs) (s : TxStore) :
    Except Err Transaction × TxStore :=
  match parseDeps (args.deps.getD []) with
  | .error e => (.error e, s)
  | .ok deps =>
    match resolveAll env.cellInputs (args.inputs.getD []) with
    | .error e => (.error e, s)
    | .ok inputs =>
      match resolveAll env.cellOutputs (args.outputs.getD []) with
      | .error e => (.error e, s)
      | .ok outputs =>
        let tx := buildTx deps inputs outputs
        let s1 := txAdd s tx
        if args.setWitnessesByKeys then
          match setWitnessesByKeys env.keys env.rpcOk s1 (Transaction.hash tx) with
          | .error e => (.error e, s1)
          | .ok (tx', s2) => (.ok tx', s2)
        else (.ok tx, s1)

/-- Arguments of the `set-witness` branch: the transaction hash, the
target input and the witness data list. -/
structure SetWitnessArgs where
  txHash : List Char
  input : List Char
  witness : List (List Char)
  deriving DecidableEq, Repr

/-- Embedding of the `set-witness` branch of `process`: the matches are
ignored and the branch returns the literal string `null`. -/
def processSetWitness (_args : SetWitnessArgs) (s : TxStore) :
    Except Err String × TxStore :=
  (.ok "null", s)

/-- Embedding of the `set-witnesses-by-keys` branch of `process`: list
the stored keys and run the signing step against the staged record. -/
def processSetWitnessesByKeys (env : Env) (h : TxHash) (s : TxStore) :
    Except Err Transaction × TxStore :=
  match setWitnessesByKeys env.keys env.rpcOk s h with
  | .error e => (.error e, s)
  | .ok (tx', s') => (.ok tx', s')

/-- Embedding of the `verify` branch of `process`: the execution-cost
budget handed to the remote verifier is `u64::MAX`, the largest
representable 64-bit unsigned value. -/
def processVerify (verdict : Transaction → Bool × Nat) (rpcOk : Bool)
    (s : TxStore) (h : TxHash) : Except Err Nat :=
  txVerify verdict rpcOk s h (2 ^ 64 - 1)

/-- Embedding of the `list` branch of `process`: every staged record,
paired with that record's own content hash. -/
def processList (s : TxStore) : List (Transaction × TxHash) :=
  (txList s).map (fun tx => (tx, Transaction.hash tx))

/-- Well-formedness of the store maintained by the workbench: each record
is keyed by its own content hash and no two records share a key. -/
def StoreWF (s : TxStore) : Prop :=
  (∀ p ∈ s, p.1 = Transaction.hash p.2) ∧ (s.map (fun p => p.1)).Nodup

instance : DecidablePred StoreWF := fun s => by
  unfold StoreWF
  infer_instance


/-- Empty transaction: no dependencies, inputs, outputs or witnesses. -/
def txEmpty : Transaction := ⟨[], [], [], []⟩

/-- Reference outpoint with an all-zero hash. -/
def opZero : OutPoint := ⟨List.replicate 64 0, 0⟩

/-- Input guarded by lock identity `7`. -/
def inpSeven : CellInput := ⟨opZero, 7⟩

/-- Key whose derivable identity is `7`. -/
def keySeven : Key := ⟨7⟩

/-- One-input transaction with its initial empty witness slot. -/
def txOneInput : Transaction := ⟨[], [inpSeven], [], [[]]⟩

/-- The one-input transaction after signing with the matching key. -/
def txOneInputSigned : Transaction := ⟨[], [inpSeven], [], [[[7]]]⟩

/-- Environment with empty registries, no keys and a failing remote. -/
def envNoRpc : Env := ⟨[], [], [], false⟩

/-- Environment with empty registries, the key of identity 7 and a
working remote. -/
def envKeySeven : Env := ⟨[], [], [keySeven], true⟩

/-- Add invocation with all three token lists absent, no signing. -/
def argsAllAbsent : AddArgs := ⟨none, none, none, false⟩

/-- Add invocation with all three token lists absent, immediate signing
requested. -/
def argsAbsentSign : AddArgs := ⟨none, none, none, true⟩

/-- Environment whose input registry holds one named cell input and
whose remote is failing. -/
def envInputDead : Env := ⟨[("in1", inpSeven)], [], [], false⟩

/-- Add invocation consuming the one registered input, immediate signing
requested. -/
def argsInputSign : AddArgs := ⟨none, some ["in1"], none, true⟩

/-- Add invocation whose only dependency token has no dash. -/
def argsBadDep : AddArgs := ⟨some [['z']], none, none, false⟩

/-- Valid dependency token: 64 times the digit a, a dash, index zero. -/
def tokSixtyFourA : List Char := List.replicate 64 'a' ++ ['-', '0']

/-- Store holding only the one-input transaction. -/
def storeOne : TxStore := txAdd [] txOneInput

/-- Remote verdict accepting every transaction at cost seven. -/
def verdictConst : Transaction → Bool × Nat := fun _ => (true, 7)

/-- Store holding the empty and the one-input transactions. -/
def storeTwo : TxStore := txAdd (txAdd [] txEmpty) txOneInput

theorem splitDash_ne_nil (cs : List Char) : splitDash cs ≠ [] := by
  induction cs with
  | nil => simp [splitDash]
  | cons c rest ih =>
    simp only [splitDash]
    split
    · simp
    · cases h : splitDash rest <;> simp

theorem splitDash_join (cs : List Char) : joinDash (splitDash cs) = cs := by
  induction cs with
  | nil => rfl
  | cons c rest ih =>
    simp only [splitDash]
    by_cases hc : c = '-'
    · subst hc
      rw [if_pos rfl]
      cases h : splitDash rest with
      | nil => exact absurd h (splitDash_ne_nil rest)
      | cons p ps =>
        rw [h] at ih
        simp only [joinDash, List.nil_append]
        rw [ih]
    · rw [if_neg hc]
      cases h : splitDash rest with
      | nil => exact absurd h (splitDash_ne_nil rest)
      | cons p ps =>
        rw [h] at ih
        cases ps with
        | nil =>
          simp only [joinDash] at ih ⊢
          rw [ih]
        | cons q qs =>
          simp only [joinDash] at ih ⊢
          rw [List.cons_append, ih]

theorem splitDash_no_dash (cs : List Char) : ∀ p ∈ splitDash cs, '-' ∉ p := by
  induction cs with
  | nil =>
    intro p hp
    simp [splitDash] at hp
    subst hp
    simp
  | cons c rest ih =>
    intro p hp
    simp only [splitDash] at hp
    by_cases hc : c = '-'
    · subst hc
      rw [if_pos rfl] at hp
      rcases List.mem_cons.mp hp with h | h
      · subst h; simp
      · exact ih p h
    · rw [if_neg hc] at hp
      cases h : splitDash rest with
      | nil => exact absurd h (splitDash_ne_nil rest)
      | cons q qs =>
        rw [h] at hp
        rcases List.mem_cons.mp hp with h2 | h2
        · subst h2
          intro hm
          rcases List.mem_cons.mp hm with h3 | h3
          · exact hc h3.symm
          · exact ih q (h ▸ List.mem_cons_self q qs) h3
        · exact ih p (h ▸ List.mem_cons_of_mem q h2)

theorem splitDash_single (cs : List Char) (h : '-' ∉ cs) : splitDash cs = [cs] := by
  induction cs with
  | nil => rfl
  | cons c rest ih =>
    rw [List.mem_cons] at h
    push_neg at h
    obtain ⟨h1, h2⟩ := h
    simp only [splitDash]
    rw [if_neg (fun hc => h1 hc.symm), ih h2]

theorem splitDash_pair_append (a b : List Char) (ha : '-' ∉ a) (hb : '-' ∉ b) :
    splitDash (a ++ '-' :: b) = [a, b] := by
  induction a with
  | nil =>
    simp only [List.nil_append, splitDash, if_true]
    rw [splitDash_single b hb]
  | cons c a' ih =>
    rw [List.mem_cons] at ha
    push_neg at ha
    obtain ⟨h1, h2⟩ := ha
    simp only [List.cons_append, splitDash, List.append_eq]
    rw [if_neg (fun hc => h1 hc.symm), ih h2]

theorem splitDash_pair (cs a b : List Char) (h : splitDash cs = [a, b]) :
    cs = a ++ '-' :: b := by
  have hj := splitDash_join cs
  rw [h] at hj
  simpa only [joinDash] using hj.symm

theorem hexVal_dash : hexVal '-' = none := by decide

theorem hexVal_lower_x : hexVal 'x' = none := by decide

theorem hexVal_upper_X : hexVal 'X' = none := by decide

theorem hexVal_lt {c : Char} {d : Nat} (h : hexVal c = some d) : d < 16 := by
  simp only [hexVal] at h
  split at h
  · rename_i hc
    injection h with h
    omega
  · split at h
    · rename_i hc
      injection h with h
      omega
    · split at h
      · rename_i hc
        injection h with h
        omega
      · exact absurd h (by simp)

theorem hexDecodeCore_some {cs : List Char} {ds : List Nat}
    (h : hexDecodeCore cs = some ds) :
    ds.length = cs.length ∧ (∀ d ∈ ds, d < 16) ∧ (∀ c ∈ cs, hexVal c ≠ none) := by
  induction cs generalizing ds with
  | nil =>
    simp only [hexDecodeCore, Option.some_inj] at h
    subst h
    simp
  | cons c cs ih =>
    simp only [hexDecodeCore] at h
    split at h
    · rename_i d ds' hv hc
      injection h with h
      subst h
      obtain ⟨hl, hb, hcs⟩ := ih hc
      refine ⟨by simp [hl], ?_, ?_⟩
      · intro x hx
        rcases List.mem_cons.mp hx with h2 | h2
        · subst h2; exact hexVal_lt hv
        · exact hb x h2
      · intro x hx
        rcases List.mem_cons.mp hx with h2 | h2
        · subst h2; simp [hv]
        · exact hcs x h2
    · exact absurd h (by simp)

theorem hexDecode_some {cs : List Char} {ds : List Nat}
    (h : hexDecode cs = some ds) :
    cs.length = 64 ∧ hexDecodeCore cs = some ds := by
  simp only [hexDecode] at h
  split at h
  · rename_i hl
    exact ⟨hl, h⟩
  · exact absurd h (by simp)

theorem hexVal_hexDigitCh {d : Nat} (h : d < 16) :
    hexVal (hexDigitCh d) = some d := by
  interval_cases d <;> decide

theorem hexDecodeCore_encode {ds : List Nat} (h : ∀ d ∈ ds, d < 16) :
    hexDecodeCore (hexEncode ds) = some ds := by
  induction ds with
  | nil => rfl
  | cons d ds ih =>
    simp only [hexEncode, List.map_cons, hexDecodeCore]
    rw [hexVal_hexDigitCh (h d (List.mem_cons_self d ds))]
    rw [show hexDecodeCore (List.map hexDigitCh ds) = some ds from
      ih (fun x hx => h x (List.mem_cons_of_mem d hx))]

theorem hexDecode_encode {ds : List Nat} (h16 : ∀ d ∈ ds, d < 16)
    (hlen : ds.length = 64) : hexDecode (hexEncode ds) = some ds := by
  simp only [hexDecode, hexEncode, List.length_map, hlen, if_true]
  exact hexDecodeCore_encode h16

theorem hexEncode_no_dash {ds : List Nat} (h : ∀ d ∈ ds, d < 16) :
    '-' ∉ hexEncode ds := by
  intro hm
  rcases List.mem_map.mp hm with ⟨d, hd, he⟩
  have hv := hexVal_hexDigitCh (h d hd)
  rw [he, hexVal_dash] at hv
  exact absurd hv (by simp)

theorem hexDecodeCore_no_dash {cs : List Char} {ds : List Nat}
    (h : hexDecodeCore cs = some ds) : '-' ∉ cs := by
  intro hm
  exact (hexDecodeCore_some h).2.2 '-' hm hexVal_dash

theorem stripHex0x_decomp (cs : List Char) :
    cs = stripHex0x cs ∨ cs = '0' :: 'x' :: stripHex0x cs ∨
      cs = '0' :: 'X' :: stripHex0x cs := by
  rcases cs with _ | ⟨a, _ | ⟨b, rest⟩⟩
  · left; rfl
  · left; rfl
  · simp only [stripHex0x]
    split
    · rename_i hcond
      obtain ⟨h0, hx⟩ := hcond
      subst h0
      rcases hx with hx | hx <;> subst hx
      · right; left; rfl
      · right; right; rfl
    · left; rfl

theorem stripHex0x_of_marker (p hs : List Char) (ds : List Nat)
    (hp : p = [] ∨ p = ['0', 'x'] ∨ p = ['0', 'X'])
    (hd : hexDecode hs = some ds) :
    stripHex0x (p ++ hs) = hs := by
  obtain ⟨hlen, hcore⟩ := hexDecode_some hd
  rcases hs with _ | ⟨h0, _ | ⟨h1, hrest⟩⟩
  · simp at hlen
  · simp at hlen
  · have hh1 : hexVal h1 ≠ none :=
      (hexDecodeCore_some hcore).2.2 h1 (by simp)
    have hx : h1 ≠ 'x' := fun he => hh1 (he ▸ hexVal_lower_x)
    have hX : h1 ≠ 'X' := fun he => hh1 (he ▸ hexVal_upper_X)
    rcases hp with hp | hp | hp <;> subst hp
    · simp only [List.nil_append, stripHex0x]
      rw [if_neg]
      rintro ⟨c1, c2⟩
      rcases c2 with c2 | c2
      · exact hx c2
      · exact hX c2
    · simp [stripHex0x]
    · simp [stripHex0x]

theorem decVal_dash : decVal '-' = none := by decide

theorem decVal_plus : decVal '+' = none := by decide

theorem decVal_decCh {d : Nat} (h : d < 10) : decVal (decCh d) = some d := by
  interval_cases d <;> decide

theorem decDecodeCore_some {cs : List Char} {ds : List Nat}
    (h : decDecodeCore cs = some ds) : ∀ c ∈ cs, decVal c ≠ none := by
  induction cs generalizing ds with
  | nil => simp
  | cons c cs ih =>
    simp only [decDecodeCore] at h
    split at h
    · rename_i d ds' hv hc
      intro x hx
      rcases List.mem_cons.mp hx with h2 | h2
      · subst h2; simp [hv]
      · exact ih hc x h2
    · exact absurd h (by simp)

theorem decDecodeCore_encode {ds : List Nat} (h : ∀ d ∈ ds, d < 10) :
    decDecodeCore (ds.map decCh) = some ds := by
  induction ds with
  | nil => rfl
  | cons d ds ih =>
    simp only [List.map_cons, decDecodeCore]
    rw [decVal_decCh (h d (List.mem_cons_self d ds))]
    rw [show decDecodeCore (List.map decCh ds) = some ds from
      ih (fun x hx => h x (List.mem_cons_of_mem d hx))]

theorem decDigitsRev_lt (n : Nat) : ∀ d ∈ decDigitsRev n, d < 10 := by
  induction n using Nat.strong_induction_on with
  | _ n ih =>
    rw [decDigitsRev]
    split
    · intro d hd
      simp only [List.mem_singleton] at hd
      omega
    · intro d hd
      rcases List.mem_cons.mp hd with h2 | h2
      · omega
      · exact ih (n / 10) (Nat.div_lt_self (by omega) (by omega)) d h2

theorem decDigitsRev_ne_nil (n : Nat) : decDigitsRev n ≠ [] := by
  rw [decDigitsRev]
  split <;> simp

theorem digitsVal_concat (ds : List Nat) (d : Nat) :
    digitsVal (ds ++ [d]) = 10 * digitsVal ds + d := by
  simp [digitsVal, List.foldl_append]

theorem digitsVal_decDigitsRev (n : Nat) :
    digitsVal (decDigitsRev n).reverse = n := by
  induction n using Nat.strong_induction_on with
  | _ n ih =>
    rw [decDigitsRev]
    split
    · simp [digitsVal]
    · rw [List.reverse_cons, digitsVal_concat,
        ih (n / 10) (Nat.div_lt_self (by omega) (by omega))]
      omega

theorem decCh_ne_plus {d : Nat} (h : d < 10) : decCh d ≠ '+' := by
  intro he
  have hv := decVal_decCh h
  rw [he, decVal_plus] at hv
  exact absurd hv (by simp)

theorem decRepr_no_dash (n : Nat) : '-' ∉ decRepr n := by
  intro hm
  rcases List.mem_map.mp hm with ⟨d, hd, he⟩
  have hv := decVal_decCh (decDigitsRev_lt n d (List.mem_reverse.mp hd))
  rw [he, decVal_dash] at hv
  exact absurd hv (by simp)

theorem stripPlus_cons {c : Char} {cs : List Char} (h : c ≠ '+') :
    stripPlus (c :: cs) = c :: cs := by
  unfold stripPlus
  split
  · rename_i rest heq
    injection heq with h1 h2
    exact absurd h1 h
  · rfl

theorem parseU32_decRepr {n : Nat} (h : n < 2 ^ 32) :
    parseU32 (decRepr n) = some n := by
  obtain ⟨d, t, ht⟩ : ∃ d t, (decDigitsRev n).reverse = d :: t := by
    cases hr : (decDigitsRev n).reverse with
    | nil => exact absurd (List.reverse_eq_nil_iff.mp hr) (decDigitsRev_ne_nil n)
    | cons d t => exact ⟨d, t, rfl⟩
  have hd10 : d < 10 :=
    decDigitsRev_lt n d (List.mem_reverse.mp (ht ▸ List.mem_cons_self d t))
  have hrepr : decRepr n = decCh d :: t.map decCh := by
    simp only [decRepr, ht, List.map_cons]
  have hstrip : stripPlus (decRepr n) = decRepr n := by
    rw [hrepr]
    exact stripPlus_cons (decCh_ne_plus hd10)
  have hdec : decDecodeCore (decRepr n) = some (d :: t) := by
    have hall : ∀ x ∈ d :: t, x < 10 := by
      intro x hx
      exact decDigitsRev_lt n x (List.mem_reverse.mp (ht ▸ hx))
    have he := decDecodeCore_encode hall
    simpa [decRepr, ht] using he
  have hval : digitsVal (d :: t) = n := by
    have hv := digitsVal_decDigitsRev n
    rwa [ht] at hv
  simp only [parseU32, hstrip]
  rw [if_neg (by rw [hrepr]; simp), hdec]
  show (if digitsVal (d :: t) < 2 ^ 32 then some (digitsVal (d :: t)) else none)
      = some n
  rw [hval, if_pos h]

theorem parseU32_some {cs : List Char} {n : Nat} (h : parseU32 cs = some n) :
    n < 2 ^ 32 ∧ '-' ∉ cs := by
  simp only [parseU32] at h
  split at h
  · exact absurd h (by simp)
  · constructor
    · split at h
      · exact absurd h (by simp)
      · rename_i ds hc
        split at h
        · injection h with h
          omega
        · exact absurd h (by simp)
    · intro h2
      split at h
      · exact absurd h (by simp)
      · rename_i ds hc
        have hmem : '-' ∈ stripPlus cs := by
          unfold stripPlus
          split
          · rcases List.mem_cons.mp h2 with h3 | h3
            · exact absurd h3 (by decide)
            · exact h3
          · exact h2
        exact decDecodeCore_some hc '-' hmem decVal_dash

theorem parseDepParts_ok {a b : List Char} {o : OutPoint}
    (h : parseDepParts a b = .ok o) :
    hexDecode (stripHex0x a) = some o.txHash ∧ parseU32 b = some o.index := by
  unfold parseDepParts at h
  split at h
  · exact absurd h (by simp)
  · rename_i hsh hd
    split at h
    · exact absurd h (by simp)
    · rename_i idx hu
      injection h with h
      subst h
      exact ⟨hd, hu⟩

theorem parseDep_ok_iff (cs : List Char) (o : OutPoint) :
    parseDep cs = .ok o ↔ ValidToken cs o := by
  constructor
  · intro h
    unfold parseDep at h
    split at h
    · rename_i a b hsp
      obtain ⟨hd, hu⟩ := parseDepParts_ok h
      have hcs := splitDash_pair cs a b hsp
      rcases stripHex0x_decomp a with ha | ha | ha
    
      · exact ⟨[], stripHex0x a, b, Or.inl rfl,
          by rw [hcs, List.nil_append]; rw [← ha], hd, hu⟩
      · exact ⟨['0', 'x'], stripHex0x a, b, Or.inr (Or.inl rfl),
          by rw [hcs]; nth_rewrite 1 [ha]; simp, hd, hu⟩
      · exact ⟨['0', 'X'], stripHex0x a, b, Or.inr (Or.inr rfl),
          by rw [hcs]; nth_rewrite 1 [ha]; simp, hd, hu⟩
    · exact absurd h (by simp)
  · rintro ⟨p, hs, idxs, hp, hcs, hd, hu⟩
    have hnop : '-' ∉ p := by
      rcases hp with hp | hp | hp <;> subst hp <;> decide
    have hnohs : '-' ∉ hs := hexDecodeCore_no_dash (hexDecode_some hd).2
    have hnoidx : '-' ∉ idxs := (parseU32_some hu).2
    have hnoa : '-' ∉ p ++ hs := by
      rw [List.mem_append]
      rintro (h2 | h2)
      · exact hnop h2
      · exact hnohs h2
    have hsp : splitDash cs = [p ++ hs, idxs] := by
      have hpa := splitDash_pair_append (p ++ hs) idxs hnoa hnoidx
      rw [hcs]
      exact hpa
    simp only [parseDep, hsp, parseDepParts,
      stripHex0x_of_marker p hs o.txHash hp hd, hd, hu]

theorem parseDep_error_shape {cs : List Char} {e : Err}
    (h : parseDep cs = .error e) :
    e = .MalformedDependency ∨ e = .InvalidHash ∨ e = .InvalidIndex := by
  unfold parseDep at h
  split at h
  · unfold parseDepParts at h
    split at h
    · injection h with h
      subst h
      right; left; rfl
    · split at h
      · injection h with h
        subst h
        right; right; rfl
      · exact absurd h (by simp)
  · injection h with h
    subst h
    left; rfl

theorem parseDeps_error_shape {l : List (List Char)} {e : Err}
    (h : parseDeps l = .error e) :
    e = .MalformedDependency ∨ e = .InvalidHash ∨ e = .InvalidIndex := by
  induction l with
  | nil => exact absurd h (by simp [parseDeps])
  | cons t rest ih =>
    simp only [parseDeps] at h
    split at h
    · rename_i e' hp
      injection h with h
      subst h
      exact parseDep_error_shape hp
    · rename_i o hp
      cases hr : parseDeps rest with
      | error e2 =>
        rw [hr] at h
        simp only [Except.map] at h
        injection h with h
        subst h
        exact ih hr
      | ok os =>
        rw [hr] at h
        exact absurd h (by simp [Except.map])

theorem resolveAll_error_shape {α : Type} {reg : List (String × α)}
    {names : List String} {e : Err} (h : resolveAll reg names = .error e) :
    ∃ n, e = .UnknownReference n := by
  induction names with
  | nil => exact absurd h (by simp [resolveAll])
  | cons n rest ih =>
    simp only [resolveAll] at h
    split at h
    · injection h with h
      exact ⟨n, h.symm⟩
    · cases hr : resolveAll reg rest with
      | error e2 =>
        rw [hr] at h
        simp only [Except.map] at h
        injection h with h
        subst h
        exact ih hr
      | ok vs =>
        rw [hr] at h
        exact absurd h (by simp [Except.map])

theorem storeGet_insert_self (s : TxStore) (h : TxHash) (tx : Transaction) :
    storeGet (storeInsert s h tx) h = some tx := by
  simp [storeInsert, storeGet]

theorem storeGet_delete_self (s : TxStore) (h : TxHash) :
    storeGet (storeDelete s h) h = none := by
  induction s with
  | nil => rfl
  | cons p rest ih =>
    obtain ⟨h', tx⟩ := p
    simp only [storeDelete]
    split
    · exact ih
    · rename_i hne
      simp only [storeGet]
      rw [if_neg hne]
      exact ih

theorem setWitnessesByKeys_insert (keys : List Key) (rpcOk : Bool)
    (s : TxStore) (tx : Transaction) :
    setWitnessesByKeys keys rpcOk (txAdd s tx) (Transaction.hash tx) =
      if rpcOk = true ∨ tx.inputs = [] then
        .ok (signTx keys tx,
          storeInsert (txAdd s tx) (Transaction.hash (signTx keys tx))
            (signTx keys tx))
      else .error .RemoteUnavailable := by
  unfold setWitnessesByKeys txAdd
  rw [storeGet_insert_self]

theorem processAdd_spec (env : Env) (args : AddArgs) (s : TxStore) :
    (∃ e, processAdd env args s = (.error e, s) ∧
      (e = .MalformedDependency ∨ e = .InvalidHash ∨ e = .InvalidIndex ∨
        ∃ n, e = .UnknownReference n)) ∨
    (∃ deps inputs outputs,
      parseDeps (args.deps.getD []) = .ok deps ∧
      resolveAll env.cellInputs (args.inputs.getD []) = .ok inputs ∧
      resolveAll env.cellOutputs (args.outputs.getD []) = .ok outputs ∧
      ((args.setWitnessesByKeys = false ∧
          processAdd env args s =
            (.ok (buildTx deps inputs outputs),
             txAdd s (buildTx deps inputs outputs))) ∨
       (args.setWitnessesByKeys = true ∧ env.rpcOk = false ∧ inputs ≠ [] ∧
          processAdd env args s =
            (.error .RemoteUnavailable,
             txAdd s (buildTx deps inputs outputs))) ∨
       (args.setWitnessesByKeys = true ∧
          (env.rpcOk = true ∨ inputs = []) ∧
          processAdd env args s =
            (.ok (signTx env.keys (buildTx deps inputs outputs)),
             storeInsert (txAdd s (buildTx deps inputs outputs))
               (Transaction.hash (signTx env.keys (buildTx deps inputs outputs)))
               (signTx env.keys (buildTx deps inputs outputs)))))) := by
  cases hp : parseDeps (args.deps.getD []) with
  | error e =>
    left
    refine ⟨e, by simp [processAdd, hp], ?_⟩
    rcases parseDeps_error_shape hp with h | h | h
    · exact Or.inl h
    · exact Or.inr (Or.inl h)
    · exact Or.inr (Or.inr (Or.inl h))
  | ok deps =>
    cases hi : resolveAll env.cellInputs (args.inputs.getD []) with
    | error e =>
      left
      exact ⟨e, by simp [processAdd, hp, hi],
        Or.inr (Or.inr (Or.inr (resolveAll_error_shape hi)))⟩
    | ok inputs =>
      cases ho : resolveAll env.cellOutputs (args.outputs.getD []) with
      | error e =>
        left
        exact ⟨e, by simp [processAdd, hp, hi, ho],
          Or.inr (Or.inr (Or.inr (resolveAll_error_shape ho)))⟩
      | ok outputs =>
        right
        refine ⟨deps, inputs, outputs, rfl, rfl, rfl, ?_⟩
        simp only [processAdd, hp, hi, ho]
        cases hf : args.setWitnessesByKeys with
        | false =>
          left
          exact ⟨rfl, rfl⟩
        | true =>
          rw [setWitnessesByKeys_insert]
          by_cases hc : env.rpcOk = true ∨ (buildTx deps inputs outputs).inputs = []
          · rw [if_pos hc]
            right; right
            exact ⟨rfl, hc, rfl⟩
          · rw [if_neg hc]
            push_neg at hc
            right; left
            exact ⟨rfl, Bool.eq_false_iff.mpr hc.1, hc.2, rfl⟩

/-- C2: for every dependency token, splitting on the literal dash must
yield exactly two parts or parsing fails with `MalformedDependency`; an
optional leading `0x` or `0X` marker is stripped from the first part
before hex-decoding it into a fixed-width hash, failing otherwise with
`InvalidHash`; the second part is parsed as an unsigned 32-bit integer,
failing otherwise with `InvalidIndex`; on success the (hash, index) pair
forms the `OutPoint` — and success happens exactly on the tokens of the
declarative grammar. -/
theorem dep_token_parsing (cs : List Char) :
    ((splitDash cs).length ≠ 2 → parseDep cs = .error .MalformedDependency) ∧
    (∀ a b, splitDash cs = [a, b] →
      (hexDecode (stripHex0x a) = none →
        parseDep cs = .error .InvalidHash) ∧
      (∀ hsh, hexDecode (stripHex0x a) = some hsh →
        (parseU32 b = none → parseDep cs = .error .InvalidIndex) ∧
        (∀ idx, parseU32 b = some idx → parseDep cs = .ok ⟨hsh, idx⟩))) ∧
    (∀ o, parseDep cs = .ok o ↔ ValidToken cs o) := by
  refine ⟨?_, ?_, fun o => parseDep_ok_iff cs o⟩
  · intro hlen
    unfold parseDep
    split
    · rename_i a b hsp
      rw [hsp] at hlen
      simp at hlen
    · rfl
  · intro a b hsp
    refine ⟨?_, ?_⟩
    · intro hd
      simp only [parseDep, hsp, parseDepParts, hd]
    · intro hsh hd
      refine ⟨?_, ?_⟩
      · intro hu
        simp only [parseDep, hsp, parseDepParts, hd, hu]
      · intro idx hu
        simp only [parseDep, hsp, parseDepParts, hd, hu]

/-- Witness for the dependency-token parsing theorem: a token with no
dash has one part and fails with `MalformedDependency`. -/
theorem dep_token_parsing_witness :
    parseDep ['z'] = .error .MalformedDependency :=
  (dep_token_parsing ['z']).1 (by decide)

/-- C7: parsing a valid dependency token and re-serializing the
resulting (hash, index) pair round-trips to the same `OutPoint`. -/
theorem dep_token_roundtrip (cs : List Char) (o : OutPoint)
    (h : parseDep cs = .ok o) : parseDep (serializeDep o) = .ok o := by
  obtain ⟨p, hs, idxs, hp, hcs, hd, hu⟩ := (parseDep_ok_iff cs o).mp h
  obtain ⟨hlen, hcore⟩ := hexDecode_some hd
  obtain ⟨hdslen, hds16, _⟩ := hexDecodeCore_some hcore
  have hidx : o.index < 2 ^ 32 := (parseU32_some hu).1
  apply (parseDep_ok_iff (serializeDep o) o).mpr
  refine ⟨[], hexEncode o.txHash, decRepr o.index, Or.inl rfl, rfl,
    hexDecode_encode hds16 (hdslen.trans hlen), parseU32_decRepr hidx⟩

/-- Witness for the round-trip theorem at the concrete token of 64 hex
digits a and index zero. -/
theorem dep_token_roundtrip_witness :
    parseDep (serializeDep ⟨List.replicate 64 10, 0⟩) =
      .ok ⟨List.replicate 64 10, 0⟩ :=
  dep_token_roundtrip tokSixtyFourA ⟨List.replicate 64 10, 0⟩ (by decide)

/-- C1 (amended): when `add` fails during dependency parsing or name
resolution — that is, with any error other than the failure of the
requested immediate signing — the store is left exactly as it was and no
record is staged; when the requested immediate signing fails
(`RemoteUnavailable`), the already staged unsigned transaction, with one
empty witness per input, remains in the store. -/
theorem add_failure_store_effects (env : Env) (args : AddArgs) (s : TxStore)
    (e : Err) (herr : (processAdd env args s).1 = .error e) :
    (e ≠ .RemoteUnavailable → (processAdd env args s).2 = s) ∧
    (e = .RemoteUnavailable → ∃ tx : Transaction,
      tx.witnesses = tx.inputs.map (fun _ => ([] : Witness)) ∧
      (processAdd env args s).2 = txAdd s tx ∧
      storeGet (processAdd env args s).2 (Transaction.hash tx) = some tx) := by
  rcases processAdd_spec env args s with
    ⟨e2, heq, hshape⟩ | ⟨deps, inputs, outputs, hp, hi, ho, hcase⟩
  · rw [heq] at herr ⊢
    simp at herr
    subst herr
    refine ⟨fun _ => rfl, fun hRU => ?_⟩
    rcases hshape with h | h | h | ⟨n, h⟩ <;> subst h <;> simp at hRU
  · rcases hcase with ⟨hf, heq⟩ | ⟨hf, hr, hne0, heq⟩ | ⟨hf, hc, heq⟩
    · rw [heq] at herr
      simp at herr
    · rw [heq] at herr ⊢
      simp at herr
      subst herr
      refine ⟨fun hne => absurd rfl hne, fun _ => ?_⟩
      refine ⟨buildTx deps inputs outputs, rfl, rfl, ?_⟩
      exact storeGet_insert_self s _ _
    · rw [heq] at herr
      simp at herr

/-- Witness for the amended all-or-nothing theorem: a malformed
dependency token leaves the empty store empty. -/
theorem add_failure_store_effects_witness :
    (processAdd envNoRpc argsBadDep []).2 = ([] : TxStore) :=
  (add_failure_store_effects envNoRpc argsBadDep [] .MalformedDependency
    (by decide)).1 (by decide)

/-- C1 counterexample: `add` of a one-input transaction (the input
resolved through the registry) with immediate signing requested, against
a remote whose per-input unlock-proof query fails — the invocation fails
with `RemoteUnavailable`, yet the transaction that was being built is
left staged in the store, so the claim that no record is left staged
when the requested immediate signing fails is false. -/
theorem add_sign_failure_counterexample :
    (processAdd envInputDead argsInputSign []).1 = .error .RemoteUnavailable ∧
    storeGet (processAdd envInputDead argsInputSign []).2
      (Transaction.hash txOneInput) = some txOneInput := by decide

/-- C4: the content hash of a staged transaction before and after a
`set-witnesses-by-keys` call is identical — the hash is computed from
content excluding witnesses and signing only replaces the witness
list. -/
theorem sign_preserves_hash (keys : List Key) (rpcOk : Bool) (s : TxStore)
    (h : TxHash) (tx tx' : Transaction) (s' : TxStore)
    (hget : storeGet s h = some tx)
    (hsig : setWitnessesByKeys keys rpcOk s h = .ok (tx', s')) :
    Transaction.hash tx' = Transaction.hash tx := by
  unfold setWitnessesByKeys at hsig
  simp only [hget] at hsig
  split at hsig
  · simp only [Except.ok.injEq, Prod.mk.injEq] at hsig
    obtain ⟨h1, _⟩ := hsig
    subst h1
    rfl
  · exact absurd hsig (by simp)

/-- Witness for hash preservation: signing the one-input transaction
with the matching key replaces its witness but keeps its hash. -/
theorem sign_preserves_hash_witness :
    Transaction.hash txOneInputSigned = Transaction.hash txOneInput :=
  sign_preserves_hash [keySeven] true storeOne (Transaction.hash txOneInput)
    txOneInput txOneInputSigned
    (storeInsert storeOne (Transaction.hash txOneInputSigned) txOneInputSigned)
    (by decide) (by decide)

/-- C6: `remove` deletes the staged record and returns the value that
was stored, a subsequent `get` (the `show` path) on that same hash fails
with `NotFound`, and `remove` on an absent hash also fails with
`NotFound`. -/
theorem remove_then_get (s : TxStore) (h : TxHash) :
    (∀ tx, storeGet s h = some tx →
      txRemove s h = .ok (tx, storeDelete s h) ∧
      txGet (storeDelete s h) h = .error .NotFound) ∧
    (storeGet s h = none → txRemove s h = .error .NotFound) := by
  refine ⟨fun tx hg => ⟨?_, ?_⟩, fun hg => ?_⟩
  · unfold txRemove
    rw [hg]
  · unfold txGet
    rw [storeGet_delete_self]
  · unfold txRemove
    rw [hg]

/-- Witness for the removal theorem on the singleton store. -/
theorem remove_then_get_witness :
    txRemove storeOne (Transaction.hash txOneInput) =
      .ok (txOneInput, storeDelete storeOne (Transaction.hash txOneInput)) ∧
    txGet (storeDelete storeOne (Transaction.hash txOneInput))
      (Transaction.hash txOneInput) = .error .NotFound :=
  (remove_then_get storeOne (Transaction.hash txOneInput)).1 txOneInput
    (by decide)

/-- C9: the `set-witness` branch, for every combination of its
arguments, leaves the store untouched and always succeeds returning the
literal string null. -/
theorem set_witness_branch_noop (args : SetWitnessArgs) (s : TxStore) :
    processSetWitness args s = (.ok "null", s) := rfl

/-- C10: an absent `deps`, `inputs` or `outputs` argument list is
treated exactly as an empty one, and `add` with all three absent and no
signing flag succeeds, staging the transaction with no dependencies, no
inputs, no outputs and an empty witness list. -/
theorem add_absent_lists_default (env : Env) (s : TxStore) :
    (∀ args : AddArgs,
      processAdd env args s =
        processAdd env
          ⟨some (args.deps.getD []), some (args.inputs.getD []),
           some (args.outputs.getD []), args.setWitnessesByKeys⟩ s) ∧
    processAdd env ⟨none, none, none, false⟩ s =
      (.ok txEmpty, txAdd s txEmpty) := by
  exact ⟨fun args => rfl, rfl⟩

/-- C3: after every successful `add` and after every successful
`set-witnesses-by-keys` call, the staged transaction — which is also the
returned one — has exactly one witness slot per input
(`len(witnesses) = len(inputs)`), and when `add` did not request
immediate signing every slot is the empty placeholder. -/
theorem witness_length_invariant :
    (∀ env args s tx s', processAdd env args s = (.ok tx, s') →
      tx.witnesses.length = tx.inputs.length ∧
      storeGet s' (Transaction.hash tx) = some tx ∧
      (args.setWitnessesByKeys = false → ∀ w ∈ tx.witnesses, w = [])) ∧
    (∀ env h s tx s', processSetWitnessesByKeys env h s = (.ok tx, s') →
      tx.witnesses.length = tx.inputs.length ∧
      storeGet s' (Transaction.hash tx) = some tx) := by
  constructor
  · intro env args s tx s' hout
    rcases processAdd_spec env args s with
      ⟨e, heq, _⟩ | ⟨deps, inputs, outputs, hp, hi, ho, hcase⟩
    · rw [heq] at hout
      simp at hout
    · rcases hcase with ⟨hf, heq⟩ | ⟨hf, hr, hne0, heq⟩ | ⟨hf, hc, heq⟩
      · rw [heq] at hout
        simp only [Prod.mk.injEq, Except.ok.injEq] at hout
        obtain ⟨h1, h2⟩ := hout
        subst h1
        subst h2
        refine ⟨by simp [buildTx], storeGet_insert_self s _ _, ?_⟩
        intro _ w hw
        rcases List.mem_map.mp hw with ⟨a, _, ha⟩
        exact ha.symm
      · rw [heq] at hout
        simp at hout
      · rw [heq] at hout
        simp only [Prod.mk.injEq, Except.ok.injEq] at hout
        obtain ⟨h1, h2⟩ := hout
        subst h1
        subst h2
        refine ⟨by simp [signTx, buildTx], storeGet_insert_self _ _ _, ?_⟩
        intro hf2
        rw [hf] at hf2
        exact absurd hf2 (by decide)
  · intro env h s tx s' hout
    unfold processSetWitnessesByKeys at hout
    cases hsk : setWitnessesByKeys env.keys env.rpcOk s h with
    | error e =>
      rw [hsk] at hout
      simp at hout
    | ok pr =>
      obtain ⟨tx2, s2⟩ := pr
      rw [hsk] at hout
      simp only [Prod.mk.injEq, Except.ok.injEq] at hout
      obtain ⟨h1, h2⟩ := hout
      subst h1
      subst h2
      unfold setWitnessesByKeys at hsk
      cases hg : storeGet s h with
      | none =>
        rw [hg] at hsk
        exact absurd hsk (by simp)
      | some tx0 =>
        simp only [hg] at hsk
        split at hsk
        · simp only [Except.ok.injEq, Prod.mk.injEq] at hsk
          obtain ⟨h3, h4⟩ := hsk
          subst h3
          subst h4
          exact ⟨by simp [signTx], storeGet_insert_self _ _ _⟩
        · exact absurd hsk (by simp)

/-- Witness for the witness-length invariant at a concrete successful
`add` of the empty transaction. -/
theorem witness_length_invariant_witness :
    txEmpty.witnesses.length = txEmpty.inputs.length :=
  ((witness_length_invariant).1 envNoRpc argsAllAbsent [] txEmpty
    (txAdd [] txEmpty) (by decide)).1

/-- C5: the `verify` branch hands the remote verifier the largest
representable 64-bit budget, so as long as the remote verifier reports
costs representable in 64 bits a `BudgetExceeded` failure is
unreachable, and an accepted transaction yields the computed cost. -/
theorem verify_budget_unreachable (verdict : Transaction → Bool × Nat)
    (rpcOk : Bool) (s : TxStore) (h : TxHash)
    (hbound : ∀ tx, (verdict tx).2 < 2 ^ 64) :
    processVerify verdict rpcOk s h ≠ .error .BudgetExceeded ∧
    (∀ tx, storeGet s h = some tx → rpcOk = true → (verdict tx).1 = true →
      processVerify verdict rpcOk s h = .ok (verdict tx).2) := by
  constructor
  · unfold processVerify txVerify
    cases hg : storeGet s h with
    | none => simp
    | some tx =>
      simp only []
      cases hr : rpcOk with
      | false => simp
      | true =>
        simp only [if_true]
        cases hv : (verdict tx).1 with
        | false => simp [hv]
        | true =>
          have hb := hbound tx
          simp only [hv, if_true]
          rw [if_neg (by omega)]
          simp
  · intro tx hg hr hv
    unfold processVerify txVerify
    simp only [hg, hr, hv, if_true]
    rw [if_neg (by have hb := hbound tx; omega)]

/-- Witness for the verify theorem: the accepting verdict of cost seven
on the staged one-input transaction yields seven. -/
theorem verify_budget_unreachable_witness :
    processVerify verdictConst true storeOne (Transaction.hash txOneInput) =
      .ok 7 :=
  (verify_budget_unreachable verdictConst true storeOne
    (Transaction.hash txOneInput) (fun _ => by norm_num [verdictConst])).2 txOneInput
    (by decide) rfl rfl

/-- C8: over every store state maintained by the workbench (records
keyed by their own content hash, one record per hash), `list` enumerates
every staged record exactly once and pairs each returned transaction
with its own content hash; nothing about the order is claimed. -/
theorem list_enumerates_records (s : TxStore) (hwf : StoreWF s) :
    (processList s).Nodup ∧
    (∀ tx h, (tx, h) ∈ processList s ↔ (h, tx) ∈ s) ∧
    (∀ tx h, (tx, h) ∈ processList s → h = Transaction.hash tx) := by
  obtain ⟨hkey, hnodup⟩ := hwf
  have hmap : processList s = s.map (fun p => (p.2, Transaction.hash p.2)) := by
    simp [processList, txList, List.map_map]
  have hsnodup : s.Nodup := List.Nodup.of_map _ hnodup
  refine ⟨?_, ?_, ?_⟩
  · rw [hmap]
    refine List.Nodup.map_on ?_ hsnodup
    intro x hx y hy hxy
    simp only [Prod.mk.injEq] at hxy
    obtain ⟨h2, _⟩ := hxy
    exact Prod.ext (by rw [hkey x hx, hkey y hy, h2]) h2
  · intro tx h
    rw [hmap]
    constructor
    · intro hm
      rcases List.mem_map.mp hm with ⟨p, hps, hpe⟩
      simp only [Prod.mk.injEq] at hpe
      obtain ⟨he1, he2⟩ := hpe
      have hpq : p = (h, tx) := Prod.ext (by rw [hkey p hps, he2]) he1
      exact hpq ▸ hps
    · intro hm
      refine List.mem_map.mpr ⟨(h, tx), hm, ?_⟩
      exact Prod.ext rfl (hkey (h, tx) hm).symm
  · intro tx h hm
    rw [hmap] at hm
    rcases List.mem_map.mp hm with ⟨p, hps, hpe⟩
    simp only [Prod.mk.injEq] at hpe
    obtain ⟨he1, he2⟩ := hpe
    rw [← he2, he1]

/-- Witness for the listing theorem on the well-formed two-record
store. -/
theorem list_enumerates_records_witness : (processList storeTwo).Nodup :=
  (list_enumerates_records storeTwo (by decide)).1
